import Mathlib

/-!
Verification of the routing pipeline of `source/codes/L7/osmnx_L7_routing.py`
(nearest-node snap, weighted shortest path, route-geometry reconstruction).

The script's own code (target-point selection, `route_nodes`/`route_line`
construction, `length_m` and `osmids` fields) is embedded directly from the
source. The shortest-path engine and the nearest-node index are calls into
external libraries whose code is not part of this repository, so they are
modelled from the specification's contracts (sections 4.2 and 4.3 of the
design document); every definition doing so says it in its doc comment.

Coordinates and weights are integers; the geometric length of a
polyline (the script's `route_geom.length`) is a real number.
-/

namespace OsmnxRouting

/-- Point in the projected plane: an (x, y) coordinate pair. -/
abbrev Point : Type := ℤ × ℤ

/-- Graph node: stable identifier, 2-D coordinate, external OSM identifier
(the `osmid` column of the script's `nodes_proj`). -/
structure Node where
  id : Nat
  x : ℤ
  y : ℤ
  osmid : Nat
deriving DecidableEq

/-- Coordinate pair of a node, as the script's `Point` geometry stores it. -/
def coordN (n : Node) : Point := (n.x, n.y)

/-- Directed graph edge: endpoints plus the free-form numeric attribute map
(weight keys such as the script's requested key point into this map). -/
structure Edge where
  src : Nat
  dst : Nat
  attrs : List (String × ℤ)
deriving DecidableEq

/-- Geometric graph: node list and directed edge list; parallel edges are
retained, as the source multigraph does. -/
structure Graph where
  nodes : List Node
  edges : List Edge
deriving DecidableEq

/-- Node identifiers present in the graph. -/
def nodeIds (g : Graph) : List Nat := g.nodes.map (fun n => n.id)

/-- Graph invariant of the data-model section: every edge references
existing node identifiers. -/
def closedGraph (g : Graph) : Prop :=
  ∀ e ∈ g.edges, e.src ∈ nodeIds g ∧ e.dst ∈ nodeIds g

instance (g : Graph) : Decidable (closedGraph g) :=
  inferInstanceAs (Decidable (∀ e ∈ g.edges, e.src ∈ nodeIds g ∧ e.dst ∈ nodeIds g))

/-- First value stored under `key` in an attribute map, if any. -/
def lookupAttr (attrs : List (String × ℤ)) (key : String) : Option ℤ :=
  match attrs.find? (fun kv => kv.1 = key) with
  | some kv => some kv.2
  | none => none

/-- Extended weight: an integer value or infinity. Infinity is the weight
the specification assigns to an edge missing the requested weight key. -/
inductive EW : Type where
  | val : ℤ → EW
  | inf : EW
deriving DecidableEq

namespace EW

/-- Boolean order on extended weights; infinity is the top element. -/
def leb : EW → EW → Bool
  | _, EW.inf => true
  | EW.inf, EW.val _ => false
  | EW.val a, EW.val b => decide (a ≤ b)

/-- Addition of extended weights; infinity is absorbing. -/
def add : EW → EW → EW
  | EW.val a, EW.val b => EW.val (a + b)
  | _, _ => EW.inf

/-- Minimum of two extended weights. -/
def minw (a b : EW) : EW := if leb a b then a else b

end EW

instance : LE EW := ⟨fun a b => EW.leb a b = true⟩

instance : DecidableRel (fun a b : EW => a ≤ b) :=
  fun a b => inferInstanceAs (Decidable (EW.leb a b = true))

/-- Modelled from the spec: weight of one edge under the requested weight key
(section 4.1); an edge missing the key is treated as weight infinity —
effectively unusable — rather than crashing the query. -/
def edgeW (key : String) (e : Edge) : EW :=
  match lookupAttr e.attrs key with
  | some w => EW.val w
  | none => EW.inf

/-- Modelled from the spec: weight between two consecutive route nodes; when
multiple parallel edges connect the pair, the minimum-weight one under the
chosen key is used (section 4.3); no connecting edge means infinity. -/
def pairWeight (g : Graph) (key : String) (u v : Nat) : EW :=
  ((g.edges.filter (fun e => e.src == u && e.dst == v)).map (edgeW key)).foldr
    EW.minw EW.inf

/-- Modelled from the spec: cumulative weight of a node sequence — the sum of
the chosen connecting edge's weight over each consecutive pair. -/
def pathWeight (g : Graph) (key : String) : List Nat → EW
  | u :: v :: rest => EW.add (pairWeight g key u v) (pathWeight g key (v :: rest))
  | _ => EW.val 0

/-- Every consecutive pair of the sequence is joined by a usable connecting
edge: one of finite weight under the requested key. -/
def chainB' (g : Graph) (key : String) : List Nat → Bool
  | u :: v :: rest =>
    decide (pairWeight g key u v ≠ EW.inf) && chainB' g key (v :: rest)
  | _ => true

/-- There is a directed edge between the two identifiers. -/
def hasEdge (g : Graph) (u v : Nat) : Bool :=
  g.edges.any (fun e => e.src == u && e.dst == v)

/-- Successor node identifiers reachable over one edge. -/
def successors (g : Graph) (u : Nat) : List Nat :=
  (g.edges.filter (fun e => e.src == u)).map (fun e => e.dst)

/-- Consecutive node pairs of the sequence are all joined by a graph edge. -/
def chainB (g : Graph) : List Nat → Bool
  | u :: v :: rest => hasEdge g u v && chainB g (v :: rest)
  | _ => true

/-- No node identifier repeats in the sequence. -/
def nodupB : List Nat → Bool
  | [] => true
  | u :: rest => !rest.contains u && nodupB rest

/-- Simple path from `s` to `t`: nonempty node sequence starting at `s`,
ending at `t`, without repeated nodes, each consecutive pair joined by an
edge of the graph. -/
def isPath (g : Graph) (s t : Nat) (p : List Nat) : Prop :=
  p.head? = some s ∧ p.getLast? = some t ∧ nodupB p = true ∧ chainB g p = true

instance (g : Graph) (s t : Nat) (p : List Nat) : Decidable (isPath g s t p) :=
  inferInstanceAs (Decidable (p.head? = some s ∧ p.getLast? = some t ∧
    nodupB p = true ∧ chainB g p = true))

instance {ε α : Type} [DecidableEq ε] [DecidableEq α] : DecidableEq (Except ε α) :=
  fun a b =>
  match a, b with
  | Except.error x, Except.error y =>
    decidable_of_iff (x = y) ⟨fun h => by rw [h], fun h => by injection h⟩
  | Except.error _, Except.ok _ => Decidable.isFalse (fun h => by injection h)
  | Except.ok _, Except.error _ => Decidable.isFalse (fun h => by injection h)
  | Except.ok x, Except.ok y =>
    decidable_of_iff (x = y) ⟨fun h => by rw [h], fun h => by injection h⟩

/-- All simple paths from `u` to `t` that avoid `vis`, with at most `fuel`
further steps; used to realize the engine's search space. -/
def pathsFrom (g : Graph) (t : Nat) : Nat → Nat → List Nat → List (List Nat)
  | 0, u, _ => if u = t then [[u]] else []
  | fuel + 1, u, vis =>
    if u = t then [[u]]
    else
      ((successors g u).filter (fun v => !(u :: vis).contains v)).flatMap
        (fun v => (pathsFrom g t fuel v (u :: vis)).map (fun p => u :: p))

/-- Lexicographic strict order on node sequences; realizes the spec's fixed,
deterministic tie-break among equal-weight paths (section 4.3). -/
def listLt : List Nat → List Nat → Bool
  | [], [] => false
  | [], _ :: _ => true
  | _ :: _, [] => false
  | a :: as, b :: bs => decide (a < b) || (decide (a = b) && listLt as bs)

/-- Select the best element of a list under the strict preference `bt`,
preferring earlier elements when neither is better. -/
def pickBest (bt : α → α → Bool) : List α → Option α
  | [] => none
  | a :: as =>
    match pickBest bt as with
    | none => some a
    | some b => if bt b a then some b else some a

/-- Typed failures of the routing pipeline (error-handling taxonomy of the
design document, section 7). -/
inductive RouteError : Type where
  | NotFound : RouteError
  | Unreachable : RouteError
  | NegativeWeight : RouteError
  | BrokenPath : RouteError
  | Cancelled : RouteError
deriving DecidableEq

/-- Some edge carries a negative value under the requested weight key. -/
def hasNegative (g : Graph) (key : String) : Bool :=
  g.edges.any (fun e =>
    match lookupAttr e.attrs key with
    | some w => decide (w < 0)
    | none => false)

/-- Simple paths from `s` to `t` whose cumulative weight is finite; a path
through an edge missing the weight key weighs infinity and is unusable. -/
def candidatePaths (g : Graph) (key : String) (s t : Nat) : List (List Nat) :=
  (pathsFrom g t g.nodes.length s []).filter
    (fun p => decide (pathWeight g key p ≠ EW.inf))

/-- Strict preference between candidate paths: strictly smaller cumulative
weight first, then the lexicographic tie-break on the node sequences. -/
def betterPath (g : Graph) (key : String) (p q : List Nat) : Bool :=
  !(EW.leb (pathWeight g key q) (pathWeight g key p)) ||
    (decide (pathWeight g key p = pathWeight g key q) && listLt p q)

/-- Modelled from the spec: the shortest-path engine (section 4.3), standing
in for the script's external `nx.shortest_path` call whose code is not in
this repository. It returns the node sequence from source to target of
minimal cumulative weight under the requested key, with the fixed
deterministic tie-break; it fails with `NotFound` when an endpoint is
absent, `NegativeWeight` when an edge weighs negative under the key, and
`Unreachable` when no usable path exists. -/
def shortest_path (g : Graph) (key : String) (s t : Nat) :
    Except RouteError (List Nat) :=
  if s ∈ nodeIds g ∧ t ∈ nodeIds g then
    if hasNegative g key then Except.error RouteError.NegativeWeight
    else
      match pickBest (betterPath g key) (candidatePaths g key s t) with
      | some p => Except.ok p
      | none => Except.error RouteError.Unreachable
  else Except.error RouteError.NotFound

/-- Strict preference between nodes for the nearest-node index: strictly
smaller distance to the query point first, ties to the lower identifier. -/
def nearerNode (p : Point) (metric : Point → Point → ℤ) (a b : Node) : Bool :=
  decide (metric p (coordN a) < metric p (coordN b)) ||
    (decide (metric p (coordN a) = metric p (coordN b)) &&
      decide (a.id < b.id))

/-- Modelled from the spec: the nearest-node index (section 4.2), standing
in for the script's external `ox.get_nearest_node` call whose code is not
in this repository. It returns the identifier of the node whose coordinate
minimizes the pluggable metric — ties broken by lowest node identifier —
together with the computed distance, and `none` on an empty graph
(`EmptyGraph`). -/
def nearest (g : Graph) (p : Point) (metric : Point → Point → ℤ) :
    Option (Nat × ℤ) :=
  (pickBest (nearerNode p metric) g.nodes).map
    (fun n => (n.id, metric p (coordN n)))

/-- Squared Euclidean distance, the concrete metric used for the script's
projected-coordinate queries: it is minimized exactly where the Euclidean
distance is, and is `0` exactly at coincident points. -/
def euclidSq (p q : Point) : ℤ := (p.1 - q.1) ^ 2 + (p.2 - q.2) ^ 2

/-- Embeds `maxx = nodes_proj['x'].max()` (source line 134): the largest
x-coordinate over the nodes, `none` for an empty node table. -/
def maxxOf (g : Graph) : Option ℤ :=
  match g.nodes.map (fun n => n.x) with
  | [] => none
  | a :: as => some (as.foldl max a)

/-- Embeds `target_loc = nodes_proj.loc[nodes_proj['x']==maxx, :]`
(source line 137): the node rows whose x-coordinate equals the maximum. -/
def target_loc (g : Graph) : List Node :=
  match maxxOf g with
  | some m => g.nodes.filter (fun n => decide (n.x = m))
  | none => []

/-- Embeds `target_point = target_loc.geometry.values[0]` (source
line 141): the coordinate of the first selected row. -/
def target_point (g : Graph) : Option Point :=
  (target_loc g).head?.map coordN

/-- Embeds `target_node = ox.get_nearest_node(graph_proj, target_xy,
method='euclidean')` (source line 153), through the modelled index; the
script passes the coordinates as a (y, x) tuple and the library measures
euclidean distance on them, which minimizes at the same node as `euclidSq`
on (x, y). -/
def target_node (g : Graph) : Option Nat :=
  match target_point g with
  | some p => (nearest g p euclidSq).map Prod.fst
  | none => none

/-- Node row stored under an identifier, as `nodes_proj.loc[i]` selects it;
`none` when the label is absent (pandas raises a KeyError there). -/
def lookupNode (g : Graph) (i : Nat) : Option Node :=
  g.nodes.find? (fun n => n.id == i)

/-- Embeds `route_nodes = nodes_proj.loc[route]` (source line 189): the
node row for each route identifier, in route order. -/
def locNodes (g : Graph) : List Nat → Option (List Node)
  | [] => some []
  | i :: rest =>
    match lookupNode g i, locNodes g rest with
    | some n, some ns => some (n :: ns)
    | _, _ => none

/-- Embeds `route_line = LineString(list(route_nodes.geometry.values))`
(source line 194): the coordinate of each route node, in route order; a
LineString requires at least two coordinates (shapely raises otherwise),
hence `none` below that. -/
def route_line (g : Graph) (r : List Nat) : Option (List Point) :=
  match locNodes g r with
  | some ns => if 2 ≤ ns.length then some (ns.map coordN) else none
  | none => none

/-- Euclidean length of one straight segment between stored coordinates. -/
noncomputable def segLen (p q : Point) : ℝ :=
  Real.sqrt (((p.1 - q.1) ^ 2 + (p.2 - q.2) ^ 2 : ℤ) : ℝ)

/-- Geometric length of a polyline: the sum of its straight segments; this
is the value shapely's `.length` assigns to the constructed line. -/
noncomputable def lineLength : List Point → ℝ
  | p :: q :: rest => segLen p q + lineLength (q :: rest)
  | _ => 0

/-- Embeds `route_geom['length_m'] = route_geom.length` (source line 205):
the geometric length of the constructed route line. -/
noncomputable def length_m (g : Graph) (r : List Nat) : Option ℝ :=
  (route_line g r).map lineLength

/-- The per-node `osmid` values of the route rows, in route order
(`route_nodes['osmid'].values` of source line 204). -/
def routeOsmids (g : Graph) (r : List Nat) : Option (List Nat) :=
  (locNodes g r).map (fun ns => ns.map (fun n => n.osmid))

/-- Python's `str` rendering of a list of integers, e.g. `[101, 102]`. -/
def pyStrIntList (l : List Nat) : String :=
  "[" ++ String.intercalate (", ") (l.map (fun n => toString n)) ++ "]"

/-- Embeds `route_geom.loc[0, 'osmids'] =
str(list(route_nodes['osmid'].values))` (source line 204): the stored
field is the string rendering of the per-node osmid list. -/
def osmidsField (g : Graph) (r : List Nat) : Option String :=
  (routeOsmids g r).map pyStrIntList

/-! Concrete example graphs used to instantiate the verified properties. -/

/-- Square graph of the specification's optimality scenario: perimeter
edges of weight 10 plus a diagonal 1→4 of weight 12. -/
def exGrid : Graph :=
  { nodes := [⟨1, 0, 0, 11⟩, ⟨2, 10, 0, 12⟩, ⟨3, 0, 10, 13⟩, ⟨4, 10, 10, 14⟩],
    edges := [⟨1, 2, [("length", 10)]⟩, ⟨2, 4, [("length", 10)]⟩,
      ⟨1, 3, [("length", 10)]⟩, ⟨3, 4, [("length", 10)]⟩,
      ⟨1, 4, [("length", 12)]⟩] }

/-- Square graph without the diagonal: the two routes 1→2→4 and 1→3→4 have
equal total weight, exercising the tie-break. -/
def exTie : Graph :=
  { nodes := [⟨1, 0, 0, 11⟩, ⟨2, 10, 0, 12⟩, ⟨3, 0, 10, 13⟩, ⟨4, 10, 10, 14⟩],
    edges := [⟨1, 2, [("length", 10)]⟩, ⟨2, 4, [("length", 10)]⟩,
      ⟨1, 3, [("length", 10)]⟩, ⟨3, 4, [("length", 10)]⟩] }

/-- Graph whose only direct edge 1→2 misses the weight key, while the
two-edge alternative 1→3→2 carries it. -/
def exMiss : Graph :=
  { nodes := [⟨1, 0, 0, 11⟩, ⟨2, 10, 0, 12⟩, ⟨3, 5, 5, 13⟩],
    edges := [⟨1, 2, []⟩, ⟨1, 3, [("length", 5)]⟩, ⟨3, 2, [("length", 6)]⟩] }

/-- Disconnected graph: two two-node components with no edge between. -/
def exDisc : Graph :=
  { nodes := [⟨1, 0, 0, 11⟩, ⟨2, 1, 0, 12⟩, ⟨3, 5, 5, 13⟩, ⟨4, 6, 5, 14⟩],
    edges := [⟨1, 2, [("length", 1)]⟩, ⟨3, 4, [("length", 1)]⟩] }

/-- Two-node graph: the straight segment between the node coordinates has
Euclidean length 5, while the edge records a road length of 99. -/
def exSeg : Graph :=
  { nodes := [⟨1, 0, 0, 101⟩, ⟨2, 3, 4, 102⟩],
    edges := [⟨1, 2, [("length", 99)]⟩] }

/-! Order lemmas for extended weights. -/

theorem EW.leb_refl (a : EW) : EW.leb a a = true := by
  cases a with
  | inf => rfl
  | val q => simp [EW.leb]

theorem EW.leb_inf (a : EW) : EW.leb a EW.inf = true := by
  cases a <;> rfl

theorem EW.leb_trans {a b c : EW} (hab : EW.leb a b = true)
    (hbc : EW.leb b c = true) : EW.leb a c = true := by
  cases a <;> cases b <;> cases c <;> simp_all [EW.leb]
  omega

theorem EW.leb_total (a b : EW) : EW.leb a b = true ∨ EW.leb b a = true := by
  cases a <;> cases b <;> simp_all [EW.leb]
  omega

theorem EW.leb_antisymm {a b : EW} (hab : EW.leb a b = true)
    (hba : EW.leb b a = true) : a = b := by
  cases a <;> cases b <;> simp_all [EW.leb]
  omega

theorem EW.add_eq_inf {a b : EW} :
    EW.add a b = EW.inf ↔ a = EW.inf ∨ b = EW.inf := by
  cases a <;> cases b <;> simp [EW.add]

/-! Order lemmas for the lexicographic tie-break. -/

theorem listLt_irrefl (p : List Nat) : listLt p p = false := by
  induction p with
  | nil => rfl
  | cons a as ih => simp [listLt, ih]

theorem listLt_trans :
    ∀ {p q r : List Nat}, listLt p q = true → listLt q r = true →
      listLt p r = true
  | [], [], _, h, _ => by simp [listLt] at h
  | [], _ :: _, [], _, h => by simp [listLt] at h
  | [], _ :: _, _ :: _, _, _ => by simp [listLt]
  | _ :: _, [], _, h, _ => by simp [listLt] at h
  | _ :: _, _ :: _, [], _, h => by simp [listLt] at h
  | a :: as, b :: bs, c :: cs, h₁, h₂ => by
    simp only [listLt, Bool.or_eq_true, Bool.and_eq_true, decide_eq_true_eq] at h₁ h₂ ⊢
    rcases h₁ with h₁ | ⟨rfl, h₁⟩
    · rcases h₂ with h₂ | ⟨rfl, _⟩
      · exact Or.inl (h₁.trans h₂)
      · exact Or.inl h₁
    · rcases h₂ with h₂ | ⟨rfl, h₂⟩
      · exact Or.inl h₂
      · exact Or.inr ⟨rfl, listLt_trans h₁ h₂⟩

theorem listLt_connex :
    ∀ {p q : List Nat}, listLt p q = false → p = q ∨ listLt q p = true
  | [], [], _ => Or.inl rfl
  | [], _ :: _, h => by simp [listLt] at h
  | _ :: _, [], _ => by simp [listLt]
  | a :: as, b :: bs, h => by
    simp only [listLt, Bool.or_eq_false_iff, Bool.and_eq_false_iff,
      decide_eq_false_iff_not] at h
    obtain ⟨hab, h₂⟩ := h
    rcases Nat.lt_trichotomy a b with hlt | rfl | hgt
    · exact absurd hlt hab
    · rcases h₂ with h₂ | h₂
      · simp at h₂
      · rcases listLt_connex h₂ with rfl | hq
        · exact Or.inl rfl
        · exact Or.inr (by simp [listLt, hq])
    · exact Or.inr (by simp [listLt, hgt])

theorem listLt_asymm {p q : List Nat} (h : listLt p q = true) :
    listLt q p = false := by
  cases hqp : listLt q p
  · rfl
  · exact absurd (listLt_irrefl p) (by simp [listLt_trans h hqp])

/-! Selection lemmas: `pickBest` returns a member no other member beats. -/

theorem pickBest_eq_none {bt : α → α → Bool} {l : List α} :
    pickBest bt l = none ↔ l = [] := by
  cases l with
  | nil => simp [pickBest]
  | cons a as =>
    simp only [pickBest]
    cases pickBest bt as with
    | none => simp
    | some b => by_cases h : bt b a = true <;> simp [h]

theorem pickBest_mem {bt : α → α → Bool} :
    ∀ {l : List α} {r : α}, pickBest bt l = some r → r ∈ l := by
  intro l
  induction l with
  | nil => intro r h; simp [pickBest] at h
  | cons a as ih =>
    intro r h
    rcases hrec : pickBest bt as with _ | b
    · simp only [pickBest, hrec] at h
      injection h with h
      exact h ▸ List.mem_cons_self a as
    · simp only [pickBest, hrec] at h
      by_cases hb : bt b a = true
      · rw [if_pos hb] at h
        injection h with h
        exact List.mem_cons_of_mem a (ih (h ▸ hrec))
      · rw [if_neg hb] at h
        injection h with h
        exact h ▸ List.mem_cons_self a as

theorem pickBest_not_beaten {bt : α → α → Bool}
    (hasym : ∀ a b, bt a b = true → bt b a = false)
    (hneg : ∀ a b c, bt a b = false → bt b c = false → bt a c = false) :
    ∀ {l : List α} {r : α}, pickBest bt l = some r →
      ∀ q ∈ l, bt q r = false := by
  have hirr : ∀ a, bt a a = false := by
    intro a
    cases h : bt a a
    · rfl
    · have hc := hasym a a h
      rw [h] at hc
      exact hc
  intro l
  induction l with
  | nil => intro r h q hq; simp at hq
  | cons a as ih =>
    intro r h q hq
    rcases hrec : pickBest bt as with _ | b
    · simp only [pickBest, hrec] at h
      injection h with h
      subst h
      rcases List.mem_cons.mp hq with rfl | hq'
      · exact hirr q
      · rw [pickBest_eq_none.mp hrec] at hq'
        simp at hq'
    · simp only [pickBest, hrec] at h
      by_cases hb : bt b a = true
      · rw [if_pos hb] at h
        injection h with h
        subst h
        rcases List.mem_cons.mp hq with rfl | hq'
        · exact hasym _ _ hb
        · exact ih hrec q hq'
      · rw [if_neg hb] at h
        injection h with h
        subst h
        rcases List.mem_cons.mp hq with rfl | hq'
        · exact hirr q
        · exact hneg _ _ _ (ih hrec q hq') (by simpa using hb)

/-! The path preference is a strict order, so `pickBest` under it yields a
minimum-weight, tie-break-least element. -/

theorem betterPath_asymm (g : Graph) (key : String) (p q : List Nat)
    (h : betterPath g key p q = true) : betterPath g key q p = false := by
  simp only [betterPath, Bool.or_eq_true, Bool.and_eq_true, Bool.not_eq_true',
    decide_eq_true_eq] at h
  simp only [betterPath, Bool.or_eq_false_iff, Bool.and_eq_false_iff,
    Bool.not_eq_false', decide_eq_false_iff_not]
  rcases h with h | ⟨heq, hlt⟩
  · refine ⟨?_, Or.inl ?_⟩
    · rcases EW.leb_total (pathWeight g key p) (pathWeight g key q) with h' | h'
      · exact h'
      · rw [h'] at h; exact absurd h (by simp)
    · intro hqp
      rw [hqp] at h
      rw [EW.leb_refl] at h
      exact absurd h (by simp)
  · constructor
    · rw [heq]; exact EW.leb_refl _
    · exact Or.inr (by simp [listLt_asymm hlt])

theorem betterPath_negtrans (g : Graph) (key : String) (a b c : List Nat)
    (hab : betterPath g key a b = false) (hbc : betterPath g key b c = false) :
    betterPath g key a c = false := by
  simp only [betterPath, Bool.or_eq_false_iff, Bool.and_eq_false_iff,
    Bool.not_eq_false', decide_eq_false_iff_not] at hab hbc ⊢
  obtain ⟨hba, hab2⟩ := hab
  obtain ⟨hcb, hbc2⟩ := hbc
  refine ⟨EW.leb_trans hcb hba, ?_⟩
  by_cases hac : pathWeight g key a = pathWeight g key c
  · right
    have hbeqa : pathWeight g key b = pathWeight g key a :=
      EW.leb_antisymm hba (hac ▸ hcb)
    have h1 : listLt a b = false := by
      rcases hab2 with h | h
      · exact absurd hbeqa.symm h
      · exact h
    have h2 : listLt b c = false := by
      rcases hbc2 with h | h
      · exact absurd (hbeqa.trans hac) h
      · exact h
    cases hlac : listLt a c
    · rfl
    · rcases listLt_connex h1 with rfl | hba'
      · rcases listLt_connex h2 with rfl | hcb'
        · rw [listLt_irrefl] at hlac; exact hlac.symm
        · rw [listLt_asymm hcb'] at hlac; exact hlac.symm
      · rcases listLt_connex h2 with rfl | hcb'
        · rw [listLt_asymm hba'] at hlac; exact hlac.symm
        · have hcyc := listLt_trans (listLt_trans hcb' hba') hlac
          rw [listLt_irrefl] at hcyc
          exact hcyc.symm
  · exact Or.inl hac

theorem pickBest_path_le {g : Graph} {key : String} {l : List (List Nat)}
    {r : List Nat} (h : pickBest (betterPath g key) l = some r) :
    ∀ q ∈ l, EW.leb (pathWeight g key r) (pathWeight g key q) = true := by
  intro q hq
  have hb := pickBest_not_beaten (betterPath_asymm g key)
    (betterPath_negtrans g key) h q hq
  simp only [betterPath, Bool.or_eq_false_iff, Bool.not_eq_false'] at hb
  exact hb.1

theorem pickBest_path_tie {g : Graph} {key : String} {l : List (List Nat)}
    {r : List Nat} (h : pickBest (betterPath g key) l = some r) :
    ∀ q ∈ l, pathWeight g key q = pathWeight g key r →
      q = r ∨ listLt r q = true := by
  intro q hq heq
  have hb := pickBest_not_beaten (betterPath_asymm g key)
    (betterPath_negtrans g key) h q hq
  simp only [betterPath, Bool.or_eq_false_iff, Bool.and_eq_false_iff,
    decide_eq_false_iff_not] at hb
  rcases hb.2 with h' | h'
  · exact absurd heq h'
  · exact listLt_connex h'

/-! Search-space lemmas: the enumeration underlying the modelled engine
yields exactly the simple paths from source to target. -/

theorem mem_successors {g : Graph} {u v : Nat} :
    v ∈ successors g u ↔ hasEdge g u v = true := by
  simp only [successors, hasEdge, List.mem_map, List.mem_filter,
    List.any_eq_true, Bool.and_eq_true, beq_iff_eq]
  constructor
  · rintro ⟨e, ⟨he, hsrc⟩, hdst⟩
    exact ⟨e, he, hsrc, hdst⟩
  · rintro ⟨e, he, hsrc, hdst⟩
    exact ⟨e, ⟨he, hsrc⟩, hdst⟩

theorem hasEdge_exists {g : Graph} {u v : Nat} (h : hasEdge g u v = true) :
    ∃ e ∈ g.edges, e.src = u ∧ e.dst = v := by
  simpa only [hasEdge, List.any_eq_true, Bool.and_eq_true, beq_iff_eq] using h

theorem nodupB_iff {p : List Nat} : nodupB p = true ↔ p.Nodup := by
  induction p with
  | nil => simp [nodupB]
  | cons a rest ih => simp [nodupB, ih, List.nodup_cons]

theorem nodupB_cons {a : Nat} {rest : List Nat} :
    nodupB (a :: rest) = true ↔ a ∉ rest ∧ nodupB rest = true := by
  simp [nodupB]

theorem pathsFrom_sound {g : Graph} {t : Nat} :
    ∀ (fuel u : Nat) (vis p : List Nat), u ∉ vis →
      p ∈ pathsFrom g t fuel u vis →
      p.head? = some u ∧ p.getLast? = some t ∧ nodupB p = true ∧
        chainB g p = true ∧ ∀ x ∈ p, x ∉ vis := by
  intro fuel
  induction fuel with
  | zero =>
    intro u vis p hu hp
    simp only [pathsFrom] at hp
    by_cases ht : u = t
    · rw [if_pos ht] at hp
      simp only [List.mem_singleton] at hp
      subst hp
      refine ⟨rfl, by simp [ht], by simp [nodupB], rfl, ?_⟩
      intro x hx
      simp only [List.mem_singleton] at hx
      exact hx ▸ hu
    · rw [if_neg ht] at hp
      simp at hp
  | succ fuel ih =>
    intro u vis p hu hp
    simp only [pathsFrom] at hp
    by_cases ht : u = t
    · rw [if_pos ht] at hp
      simp only [List.mem_singleton] at hp
      subst hp
      refine ⟨rfl, by simp [ht], by simp [nodupB], rfl, ?_⟩
      intro x hx
      simp only [List.mem_singleton] at hx
      exact hx ▸ hu
    · rw [if_neg ht] at hp
      simp only [List.mem_flatMap, List.mem_map, List.mem_filter,
        Bool.not_eq_true'] at hp
      obtain ⟨v, ⟨hvsucc, hvvis⟩, p', hp', rfl⟩ := hp
      have hvnot : v ∉ u :: vis := by
        intro hc
        rw [(by simp : ((u :: vis).contains v = true) ↔ v ∈ u :: vis).mpr hc]
          at hvvis
        exact Bool.true_eq_false.mp hvvis
      obtain ⟨hhead, hlast, hnodup, hchain, hdisj⟩ :=
        ih v (u :: vis) p' hvnot hp'
      have hne : p' ≠ [] := by
        intro hc
        rw [hc] at hhead
        simp at hhead
      obtain ⟨b, rest, rfl⟩ := List.exists_cons_of_ne_nil hne
      have hbv : b = v := by
        simp only [List.head?_cons, Option.some.injEq] at hhead
        exact hhead
      refine ⟨rfl, by rw [List.getLast?_cons_cons]; exact hlast, ?_, ?_, ?_⟩
      · rw [nodupB_cons]
        refine ⟨?_, hnodup⟩
        intro hc
        exact (hdisj u hc) (List.mem_cons_self u vis)
      · simp only [chainB, Bool.and_eq_true]
        exact ⟨hbv ▸ mem_successors.mp hvsucc, hchain⟩
      · intro x hx
        rcases List.mem_cons.mp hx with rfl | hx
        · exact hu
        · intro hc
          exact (hdisj x hx) (List.mem_cons_of_mem u hc)

theorem pathsFrom_complete {g : Graph} {t : Nat} :
    ∀ (p : List Nat), ∀ {fuel u : Nat} {vis : List Nat},
      chainB g p = true → p.head? = some u → p.getLast? = some t →
      nodupB p = true → (∀ x ∈ p, x ∉ vis) → p.length ≤ fuel + 1 →
      p ∈ pathsFrom g t fuel u vis := by
  intro p
  induction p with
  | nil => intro fuel u vis _ hhead _ _ _ _; simp at hhead
  | cons a rest ih =>
    intro fuel u vis hchain hhead hlast hnodup hvis hlen
    have hau : a = u := by
      simp only [List.head?_cons, Option.some.injEq] at hhead
      exact hhead
    subst hau
    cases rest with
    | nil =>
      have hat : a = t := by
        simp only [List.getLast?_singleton, Option.some.injEq] at hlast
        exact hlast
      cases fuel with
      | zero => simp [pathsFrom, if_pos hat]
      | succ fuel => simp [pathsFrom, if_pos hat]
    | cons b rest' =>
      have hlast' : (b :: rest').getLast? = some t := by
        rw [List.getLast?_cons_cons] at hlast
        exact hlast
      have hanotin : a ∉ b :: rest' := (nodupB_cons.mp hnodup).1
      have hat : a ≠ t := by
        intro hc
        exact hanotin (hc ▸ List.mem_of_mem_getLast? hlast')
      cases fuel with
      | zero => simp at hlen
      | succ fuel =>
        simp only [pathsFrom, if_neg hat, List.mem_flatMap, List.mem_map,
          List.mem_filter, Bool.not_eq_true']
        have hc : hasEdge g a b = true ∧ chainB g (b :: rest') = true := by
          have hcc := hchain
          simp only [chainB, Bool.and_eq_true] at hcc
          exact hcc
        refine ⟨b, ⟨?_, ?_⟩, b :: rest', ?_, rfl⟩
        · exact mem_successors.mpr hc.1
        · have hbn : b ∉ a :: vis := by
            intro hc
            rcases List.mem_cons.mp hc with rfl | hc
            · exact hanotin (List.mem_cons_self b rest')
            · exact hvis b (List.mem_cons_of_mem _ (List.mem_cons_self b rest')) hc
          cases hcb : (a :: vis).contains b
          · rfl
          · exact absurd ((by simp : ((a :: vis).contains b = true) ↔
              b ∈ a :: vis).mp hcb) hbn
        · refine ih ?_ rfl hlast' (nodupB_cons.mp hnodup).2 ?_ ?_
          · exact hc.2
          · intro x hx
            intro hc
            rcases List.mem_cons.mp hc with rfl | hc
            · exact hanotin hx
            · exact hvis x (List.mem_cons_of_mem _ hx) hc
          · simp only [List.length_cons] at hlen ⊢
            omega

/-- Every node of a simple path lies in the graph, by the closedness
invariant: the head is the source and every later node is an edge target. -/
theorem path_nodes_mem {g : Graph} (hcl : closedGraph g) :
    ∀ (p : List Nat) (u : Nat), p.head? = some u → u ∈ nodeIds g →
      chainB g p = true → ∀ x ∈ p, x ∈ nodeIds g := by
  intro p
  induction p with
  | nil => intro u hh _ _ x hx; simp at hx
  | cons a rest ih =>
    intro u hh hu hchain x hx
    have hau : a = u := by
      simp only [List.head?_cons, Option.some.injEq] at hh
      exact hh
    subst hau
    rcases List.mem_cons.mp hx with rfl | hx
    · exact hu
    · cases rest with
      | nil => simp at hx
      | cons b rest' =>
        have hc : hasEdge g a b = true ∧ chainB g (b :: rest') = true := by
          have hcc := hchain
          simp only [chainB, Bool.and_eq_true] at hcc
          exact hcc
        obtain ⟨e, he, hsrc, hdst⟩ := hasEdge_exists hc.1
        exact ih b rfl (hdst ▸ (hcl e he).2) hc.2 x hx

/-- A simple path visits each graph node at most once, so it is no longer
than the node list. -/
theorem path_length_le {g : Graph} {s t : Nat} {p : List Nat}
    (hcl : closedGraph g) (hs : s ∈ nodeIds g) (hp : isPath g s t p) :
    p.length ≤ g.nodes.length := by
  obtain ⟨hhead, _, hnodup, hchain⟩ := hp
  have hsub : ∀ x ∈ p, x ∈ nodeIds g :=
    path_nodes_mem hcl p s hhead hs hchain
  have hlen : p.length ≤ (nodeIds g).length :=
    ((nodupB_iff.mp hnodup).subperm (fun x hx => hsub x hx)).length_le
  simpa [nodeIds] using hlen

/-- Bridge: the enumeration with fuel `g.nodes.length` contains exactly the
simple paths from `s` to `t`. -/
theorem mem_enum_iff_isPath {g : Graph} {s t : Nat} {p : List Nat}
    (hcl : closedGraph g) (hs : s ∈ nodeIds g) :
    p ∈ pathsFrom g t g.nodes.length s [] ↔ isPath g s t p := by
  constructor
  · intro hp
    obtain ⟨hhead, hlast, hnodup, hchain, _⟩ :=
      pathsFrom_sound g.nodes.length s [] p (by simp) hp
    exact ⟨hhead, hlast, hnodup, hchain⟩
  · intro hp
    obtain ⟨hhead, hlast, hnodup, hchain⟩ := hp
    exact pathsFrom_complete p hchain hhead hlast hnodup (by simp)
      (Nat.le_succ_of_le (path_length_le hcl hs ⟨hhead, hlast, hnodup, hchain⟩))

/-- Bridge: candidate paths are exactly the simple paths of finite weight. -/
theorem mem_candidates_iff {g : Graph} {key : String} {s t : Nat}
    {p : List Nat} (hcl : closedGraph g) (hs : s ∈ nodeIds g) :
    p ∈ candidatePaths g key s t ↔
      isPath g s t p ∧ pathWeight g key p ≠ EW.inf := by
  simp only [candidatePaths, List.mem_filter, decide_eq_true_eq]
  rw [mem_enum_iff_isPath hcl hs]

/-- Contract of the modelled engine in the success case: the result is a
simple path from `s` to `t` of finite, minimal cumulative weight, least
under the tie-break among equal-weight simple paths. -/
theorem shortest_path_ok_spec {g : Graph} {key : String} {s t : Nat}
    (hcl : closedGraph g) (hs : s ∈ nodeIds g) (ht : t ∈ nodeIds g)
    (hneg : hasNegative g key = false)
    (hex : ∃ p, isPath g s t p ∧ pathWeight g key p ≠ EW.inf) :
    ∃ r, shortest_path g key s t = Except.ok r ∧ isPath g s t r ∧
      pathWeight g key r ≠ EW.inf ∧
      (∀ p, isPath g s t p →
        EW.leb (pathWeight g key r) (pathWeight g key p) = true) ∧
      (∀ p, isPath g s t p → pathWeight g key p = pathWeight g key r →
        p = r ∨ listLt r p = true) := by
  obtain ⟨p₀, hp₀, hw₀⟩ := hex
  have hp₀mem : p₀ ∈ candidatePaths g key s t :=
    (mem_candidates_iff hcl hs).mpr ⟨hp₀, hw₀⟩
  rcases hpick : pickBest (betterPath g key) (candidatePaths g key s t)
    with _ | r
  · rw [pickBest_eq_none.mp hpick] at hp₀mem
    simp at hp₀mem
  · have hrmem := pickBest_mem hpick
    obtain ⟨hrpath, hrw⟩ := (mem_candidates_iff hcl hs).mp hrmem
    refine ⟨r, ?_, hrpath, hrw, ?_, ?_⟩
    · simp [shortest_path, hs, ht, hneg, hpick]
    · intro p hp
      by_cases hw : pathWeight g key p = EW.inf
      · rw [hw]; exact EW.leb_inf _
      · exact pickBest_path_le hpick p ((mem_candidates_iff hcl hs).mpr ⟨hp, hw⟩)
    · intro p hp heq
      have hpmem : p ∈ candidatePaths g key s t :=
        (mem_candidates_iff hcl hs).mpr ⟨hp, by rw [heq]; exact hrw⟩
      exact pickBest_path_tie hpick p hpmem heq

/-- Contract of the modelled engine when every simple path is unusable
(infinite weight, in particular when no path exists at all): the typed
result `Unreachable`. -/
theorem shortest_path_unreachable_spec {g : Graph} {key : String} {s t : Nat}
    (hcl : closedGraph g) (hs : s ∈ nodeIds g) (ht : t ∈ nodeIds g)
    (hneg : hasNegative g key = false)
    (hall : ∀ p, isPath g s t p → pathWeight g key p = EW.inf) :
    shortest_path g key s t = Except.error RouteError.Unreachable := by
  have hcand : candidatePaths g key s t = [] := by
    rw [List.eq_nil_iff_forall_not_mem]
    intro q hq
    obtain ⟨hqpath, hqw⟩ := (mem_candidates_iff hcl hs).mp hq
    exact hqw (hall q hqpath)
  simp [shortest_path, hs, ht, hneg, hcand, pickBest]

/-- The result of a successful engine run never traverses a consecutive
pair whose connecting-edge weight is infinite. -/
theorem pathWeight_finite_chain {g : Graph} {key : String} :
    ∀ {p : List Nat}, pathWeight g key p ≠ EW.inf →
      chainB' g key p = true := by
  intro p
  induction p with
  | nil => intro _; rfl
  | cons u rest ih =>
    cases rest with
    | nil => intro _; rfl
    | cons v rest' =>
      intro h
      simp only [pathWeight] at h
      have h2 : pairWeight g key u v ≠ EW.inf ∧
          pathWeight g key (v :: rest') ≠ EW.inf := by
        constructor
        · intro hc; exact h (EW.add_eq_inf.mpr (Or.inl hc))
        · intro hc; exact h (EW.add_eq_inf.mpr (Or.inr hc))
      simp only [chainB', Bool.and_eq_true, decide_eq_true_eq]
      exact ⟨h2.1, ih h2.2⟩

/-! Nearest-node index: the preference is a strict order, so the index
returns the node minimizing the metric, ties to the lowest identifier. -/

theorem nearerNode_asymm (p : Point) (metric : Point → Point → ℤ)
    (a b : Node) (h : nearerNode p metric a b = true) :
    nearerNode p metric b a = false := by
  simp only [nearerNode, Bool.or_eq_true, Bool.and_eq_true,
    decide_eq_true_eq] at h
  simp only [nearerNode, Bool.or_eq_false_iff, Bool.and_eq_false_iff,
    decide_eq_false_iff_not]
  omega

theorem nearerNode_negtrans (p : Point) (metric : Point → Point → ℤ)
    (a b c : Node) (hab : nearerNode p metric a b = false)
    (hbc : nearerNode p metric b c = false) :
    nearerNode p metric a c = false := by
  simp only [nearerNode, Bool.or_eq_false_iff, Bool.and_eq_false_iff,
    decide_eq_false_iff_not] at hab hbc ⊢
  omega

/-- Contract of the modelled index on a nonempty graph: some node of the
graph is returned, its metric value is minimal, and among nodes at the
minimal metric value its identifier is least. -/
theorem nearest_spec (g : Graph) (p : Point) (metric : Point → Point → ℤ)
    (hne : g.nodes ≠ []) :
    ∃ n ∈ g.nodes, nearest g p metric = some (n.id, metric p (coordN n)) ∧
      (∀ m ∈ g.nodes, metric p (coordN n) ≤ metric p (coordN m)) ∧
      (∀ m ∈ g.nodes, metric p (coordN m) = metric p (coordN n) →
        n.id ≤ m.id) := by
  rcases hpick : pickBest (nearerNode p metric) g.nodes with _ | n
  · exact absurd (pickBest_eq_none.mp hpick) hne
  · refine ⟨n, pickBest_mem hpick, by simp [nearest, hpick], ?_, ?_⟩
    · intro m hm
      have hb := pickBest_not_beaten (nearerNode_asymm p metric)
        (nearerNode_negtrans p metric) hpick m hm
      simp only [nearerNode, Bool.or_eq_false_iff, Bool.and_eq_false_iff,
        decide_eq_false_iff_not] at hb
      omega
    · intro m hm heq
      have hb := pickBest_not_beaten (nearerNode_asymm p metric)
        (nearerNode_negtrans p metric) hpick m hm
      simp only [nearerNode, Bool.or_eq_false_iff, Bool.and_eq_false_iff,
        decide_eq_false_iff_not] at hb
      omega

/-! Row-selection lemmas: `locNodes` returns one node row per route
identifier, in route order. -/

theorem lookupNode_spec {g : Graph} {i : Nat} {n : Node}
    (h : lookupNode g i = some n) : n ∈ g.nodes ∧ n.id = i := by
  refine ⟨List.mem_of_find?_eq_some h, ?_⟩
  have := List.find?_some h
  simpa using this

theorem lookupNode_isSome_of_mem {g : Graph} {i : Nat}
    (h : i ∈ nodeIds g) : ∃ n, lookupNode g i = some n := by
  simp only [nodeIds, List.mem_map] at h
  obtain ⟨n, hn, hid⟩ := h
  rcases hf : lookupNode g i with _ | m
  · have := List.find?_eq_none.mp hf n hn
    simp [hid] at this
  · exact ⟨m, rfl⟩

theorem locNodes_cons {g : Graph} {i : Nat} {rest : List Nat}
    {ns : List Node} :
    locNodes g (i :: rest) = some ns ↔
      ∃ n ns', lookupNode g i = some n ∧ locNodes g rest = some ns' ∧
        ns = n :: ns' := by
  constructor
  · intro h
    simp only [locNodes] at h
    rcases h1 : lookupNode g i with _ | n
    · rw [h1] at h; simp at h
    · rcases h2 : locNodes g rest with _ | ns'
      · rw [h1, h2] at h; simp at h
      · rw [h1, h2] at h
        injection h with h
        exact ⟨n, ns', rfl, rfl, h.symm⟩
  · rintro ⟨n, ns', h1, h2, rfl⟩
    simp [locNodes, h1, h2]

theorem locNodes_some {g : Graph} :
    ∀ {r : List Nat}, (∀ i ∈ r, i ∈ nodeIds g) →
      ∃ ns, locNodes g r = some ns := by
  intro r
  induction r with
  | nil => intro _; exact ⟨[], rfl⟩
  | cons i rest ih =>
    intro h
    obtain ⟨n, hn⟩ := lookupNode_isSome_of_mem (h i (List.mem_cons_self i rest))
    obtain ⟨ns', hns'⟩ := ih (fun j hj => h j (List.mem_cons_of_mem i hj))
    exact ⟨n :: ns', locNodes_cons.mpr ⟨n, ns', hn, hns', rfl⟩⟩

theorem locNodes_length {g : Graph} :
    ∀ {r : List Nat} {ns : List Node}, locNodes g r = some ns →
      ns.length = r.length := by
  intro r
  induction r with
  | nil =>
    intro ns h
    simp only [locNodes] at h
    injection h with h
    simp [← h]
  | cons i rest ih =>
    intro ns h
    obtain ⟨n, ns', _, h2, rfl⟩ := locNodes_cons.mp h
    simp [ih h2]

theorem locNodes_get {g : Graph} :
    ∀ {r : List Nat} {ns : List Node}, locNodes g r = some ns →
      ∀ (k : Nat) (hk : k < r.length) (hk' : k < ns.length),
        lookupNode g (r.get ⟨k, hk⟩) = some (ns.get ⟨k, hk'⟩) := by
  intro r
  induction r with
  | nil => intro ns _ k hk; simp at hk
  | cons i rest ih =>
    intro ns h k hk hk'
    obtain ⟨n, ns', h1, h2, rfl⟩ := locNodes_cons.mp h
    cases k with
    | zero => simpa using h1
    | succ k =>
      simp only [List.get_cons_succ]
      exact ih h2 k (by simpa using hk) (by simpa using hk')

theorem locNodes_getLast {g : Graph} :
    ∀ {r : List Nat} {ns : List Node} {i : Nat}, locNodes g r = some ns →
      r.getLast? = some i →
      ∃ n, lookupNode g i = some n ∧ ns.getLast? = some n := by
  intro r
  induction r with
  | nil => intro ns i _ hl; simp at hl
  | cons j rest ih =>
    intro ns i h hl
    obtain ⟨n, ns', h1, h2, rfl⟩ := locNodes_cons.mp h
    cases rest with
    | nil =>
      simp only [List.getLast?_singleton, Option.some.injEq] at hl
      subst hl
      have : ns' = [] := by
        simp only [locNodes] at h2
        injection h2 with h2
        exact h2.symm
      subst this
      exact ⟨n, h1, rfl⟩
    | cons j' rest' =>
      rw [List.getLast?_cons_cons] at hl
      obtain ⟨m, hm1, hm2⟩ := ih h2 hl
      refine ⟨m, hm1, ?_⟩
      have hne : ns' ≠ [] := by
        intro hc
        rw [hc] at hm2
        simp at hm2
      obtain ⟨m', tail, rfl⟩ := List.exists_cons_of_ne_nil hne
      rw [List.getLast?_cons_cons]
      exact hm2

/-! Further bridges between the engine's branches and its specification. -/

theorem shortest_path_ok_pick {g : Graph} {key : String} {s t : Nat}
    {r : List Nat} (h : shortest_path g key s t = Except.ok r) :
    pickBest (betterPath g key) (candidatePaths g key s t) = some r := by
  unfold shortest_path at h
  by_cases hmem : s ∈ nodeIds g ∧ t ∈ nodeIds g
  · rw [if_pos hmem] at h
    by_cases hneg : hasNegative g key = true
    · rw [if_pos hneg] at h
      simp at h
    · rw [if_neg hneg] at h
      rcases hpick : pickBest (betterPath g key) (candidatePaths g key s t)
        with _ | q
      · rw [hpick] at h
        simp at h
      · rw [hpick] at h
        injection h with h
        rw [h]
  · rw [if_neg hmem] at h
    simp at h

theorem shortest_path_ok_mem {g : Graph} {key : String} {s t : Nat}
    {r : List Nat} (h : shortest_path g key s t = Except.ok r) :
    r ∈ candidatePaths g key s t :=
  pickBest_mem (shortest_path_ok_pick h)

/-- When the bounded enumeration from `s` is empty, no simple path to the
target exists at all. -/
theorem no_path_of_enum_nil {g : Graph} {s t : Nat} (hcl : closedGraph g)
    (hs : s ∈ nodeIds g) (henum : pathsFrom g t g.nodes.length s [] = []) :
    ∀ p, ¬ isPath g s t p := by
  intro p hp
  have hmem := (mem_enum_iff_isPath hcl hs).mpr hp
  rw [henum] at hmem
  simp at hmem

/-! Maximum-selection lemmas for the target-point computation. -/

theorem foldl_max_mem : ∀ (as : List ℤ) (a : ℤ), as.foldl max a ∈ a :: as := by
  intro as
  induction as with
  | nil => intro a; simp
  | cons b bs ih =>
    intro a
    simp only [List.foldl_cons]
    rcases List.mem_cons.mp (ih (max a b)) with heq | hmem
    · rw [heq]
      rcases max_choice a b with hab | hab
      · rw [hab]
        exact List.mem_cons_self a (b :: bs)
      · rw [hab]
        exact List.mem_cons_of_mem a (List.mem_cons_self b bs)
    · exact List.mem_cons_of_mem a (List.mem_cons_of_mem b hmem)

theorem le_foldl_max : ∀ (as : List ℤ) (a : ℤ), ∀ b ∈ a :: as,
    b ≤ as.foldl max a := by
  intro as
  induction as with
  | nil => intro a b hb; simp only [List.mem_singleton] at hb; exact hb.le
  | cons c cs ih =>
    intro a b hb
    simp only [List.foldl_cons]
    rcases List.mem_cons.mp hb with rfl | hb
    · exact le_trans (le_max_left b c) (ih (max b c) _ (List.mem_cons_self _ cs))
    · rcases List.mem_cons.mp hb with rfl | hb
      · exact le_trans (le_max_right a b) (ih (max a b) _ (List.mem_cons_self _ cs))
      · exact ih (max a c) b (List.mem_cons_of_mem _ hb)

/-! Geometric-length lemmas for the reconstructed route line. -/

theorem lineLength_eq_zipSum :
    ∀ pts : List Point, lineLength pts =
      ((pts.zip pts.tail).map (fun pr => segLen pr.1 pr.2)).sum := by
  intro pts
  match pts with
  | [] => simp [lineLength]
  | [p] => simp [lineLength]
  | p :: q :: rest =>
    have ih := lineLength_eq_zipSum (q :: rest)
    simp only [lineLength, List.tail_cons, List.zip_cons_cons, List.map_cons,
      List.sum_cons]
    rw [ih]
    rfl

theorem route_line_eq_none {g : Graph} {r : List Nat}
    (h : locNodes g r = none) : route_line g r = none := by
  unfold route_line
  rw [h]

theorem route_line_eq_some {g : Graph} {r : List Nat} {ns : List Node}
    (h : locNodes g r = some ns) :
    route_line g r = if 2 ≤ ns.length then some (ns.map coordN) else none := by
  unfold route_line
  rw [h]

theorem route_line_eq {g : Graph} {r : List Nat} {pts : List Point}
    (h : route_line g r = some pts) :
    ∃ ns, locNodes g r = some ns ∧ pts = ns.map coordN ∧ 2 ≤ ns.length := by
  rcases hln : locNodes g r with _ | ns
  · rw [route_line_eq_none hln] at h
    simp at h
  · rw [route_line_eq_some hln] at h
    by_cases hlen : 2 ≤ ns.length
    · rw [if_pos hlen] at h
      injection h with h
      exact ⟨ns, rfl, h.symm, hlen⟩
    · rw [if_neg hlen] at h
      simp at h

theorem route_line_of_locNodes {g : Graph} {r : List Nat} {ns : List Node}
    (h : locNodes g r = some ns) (hlen : 2 ≤ ns.length) :
    route_line g r = some (ns.map coordN) := by
  rw [route_line_eq_some h, if_pos hlen]

/-! Claim theorems. -/

/-- Claim C1: in every shortest-path query, an edge missing the requested
weight key is treated as weight infinity — effectively unusable: a returned
route only traverses consecutive pairs connected by a finite-weight edge,
the search still succeeds whenever some finite-weight path exists (routing
around the unusable edges), and when every path from source to target is
unusable the query returns the typed failure `Unreachable`; the missing key
never aborts the query and never lets the edge act as a finite default. -/
theorem c1_missing_key_means_infinity (g : Graph) (key : String) (s t : Nat)
    (hcl : closedGraph g) (hs : s ∈ nodeIds g) (ht : t ∈ nodeIds g)
    (hneg : hasNegative g key = false) :
    (∀ e ∈ g.edges, lookupAttr e.attrs key = none → edgeW key e = EW.inf) ∧
    (∀ r, shortest_path g key s t = Except.ok r →
      pathWeight g key r ≠ EW.inf ∧ chainB' g key r = true) ∧
    ((∃ p, isPath g s t p ∧ pathWeight g key p ≠ EW.inf) →
      ∃ r, shortest_path g key s t = Except.ok r ∧
        pathWeight g key r ≠ EW.inf) ∧
    ((∀ p, isPath g s t p → pathWeight g key p = EW.inf) →
      shortest_path g key s t = Except.error RouteError.Unreachable) := by
  refine ⟨?_, ?_, ?_, ?_⟩
  · intro e _ hnone
    simp [edgeW, hnone]
  · intro r hok
    have hmem := shortest_path_ok_mem hok
    have hw := ((mem_candidates_iff hcl hs).mp hmem).2
    exact ⟨hw, pathWeight_finite_chain hw⟩
  · intro hex
    obtain ⟨r, hok, _, hw, _, _⟩ := shortest_path_ok_spec hcl hs ht hneg hex
    exact ⟨r, hok, hw⟩
  · intro hall
    exact shortest_path_unreachable_spec hcl hs ht hneg hall

/-- Witness for C1 on the concrete graph `exMiss`, whose only direct edge
1→2 misses the weight key while 1→3→2 carries it. -/
theorem c1_missing_key_means_infinity_witness :
    closedGraph exMiss ∧ 1 ∈ nodeIds exMiss ∧ 2 ∈ nodeIds exMiss ∧
    hasNegative exMiss ("length") = false ∧
    ((∀ e ∈ exMiss.edges, lookupAttr e.attrs ("length") = none →
        edgeW ("length") e = EW.inf) ∧
      (∀ r, shortest_path exMiss ("length") 1 2 = Except.ok r →
        pathWeight exMiss ("length") r ≠ EW.inf ∧
          chainB' exMiss ("length") r = true) ∧
      ((∃ p, isPath exMiss 1 2 p ∧ pathWeight exMiss ("length") p ≠ EW.inf) →
        ∃ r, shortest_path exMiss ("length") 1 2 = Except.ok r ∧
          pathWeight exMiss ("length") r ≠ EW.inf) ∧
      ((∀ p, isPath exMiss 1 2 p → pathWeight exMiss ("length") p = EW.inf) →
        shortest_path exMiss ("length") 1 2 =
          Except.error RouteError.Unreachable)) :=
  ⟨by decide, by decide, by decide, by decide,
    c1_missing_key_means_infinity exMiss ("length") 1 2 (by decide) (by decide)
      (by decide) (by decide)⟩

/-- Claim C2: whenever a (usable) path from `s` to `t` exists, the engine
returns a node sequence that starts at `s`, ends at `t`, and whose
cumulative weight under the requested key is less than or equal to that of
every other simple path between `s` and `t`. -/
theorem c2_shortest_path_optimal (g : Graph) (key : String) (s t : Nat)
    (hcl : closedGraph g) (hs : s ∈ nodeIds g) (ht : t ∈ nodeIds g)
    (hneg : hasNegative g key = false)
    (hex : ∃ p, isPath g s t p ∧ pathWeight g key p ≠ EW.inf) :
    ∃ r, shortest_path g key s t = Except.ok r ∧ r.head? = some s ∧
      r.getLast? = some t ∧
      ∀ p, isPath g s t p → pathWeight g key r ≤ pathWeight g key p := by
  obtain ⟨r, hok, hpath, _, hopt, _⟩ :=
    shortest_path_ok_spec hcl hs ht hneg hex
  exact ⟨r, hok, hpath.1, hpath.2.1, fun p hp => hopt p hp⟩

/-- Witness for C2 on the spec's square-plus-diagonal scenario `exGrid`. -/
theorem c2_shortest_path_optimal_witness :
    closedGraph exGrid ∧ 1 ∈ nodeIds exGrid ∧ 4 ∈ nodeIds exGrid ∧
    hasNegative exGrid ("length") = false ∧
    shortest_path exGrid ("length") 1 4 = Except.ok [1, 4] ∧
    pathWeight exGrid ("length") [1, 4] = EW.val 12 ∧
    (∃ r, shortest_path exGrid ("length") 1 4 = Except.ok r ∧
      r.head? = some 1 ∧ r.getLast? = some 4 ∧
      ∀ p, isPath exGrid 1 4 p →
        pathWeight exGrid ("length") r ≤ pathWeight exGrid ("length") p) :=
  ⟨by decide, by decide, by decide, by decide, by decide, by decide,
    c2_shortest_path_optimal exGrid ("length") 1 4 (by decide) (by decide)
      (by decide) (by decide) ⟨[1, 4], by decide, by decide⟩⟩

/-- Claim C4: between endpoints with no connecting path the engine returns
the typed failure `Unreachable` — never any node sequence presented as
success — and `Unreachable` is distinguishable from every other failure
kind, so callers can branch on it. -/
theorem c4_unreachable_on_disconnected (g : Graph) (key : String) (s t : Nat)
    (hcl : closedGraph g) (hs : s ∈ nodeIds g) (ht : t ∈ nodeIds g)
    (hneg : hasNegative g key = false)
    (hnopath : ∀ p, ¬ isPath g s t p) :
    shortest_path g key s t = Except.error RouteError.Unreachable ∧
    (∀ r : List Nat, shortest_path g key s t ≠ Except.ok r) ∧
    RouteError.Unreachable ≠ RouteError.NotFound ∧
    RouteError.Unreachable ≠ RouteError.NegativeWeight ∧
    RouteError.Unreachable ≠ RouteError.BrokenPath ∧
    RouteError.Unreachable ≠ RouteError.Cancelled := by
  have herr := shortest_path_unreachable_spec hcl hs ht hneg
    (fun p hp => absurd hp (hnopath p))
  refine ⟨herr, ?_, by decide, by decide, by decide, by decide⟩
  intro r hc
  rw [herr] at hc
  simp at hc

/-- Witness for C4 on the disconnected graph `exDisc` (components {1,2}
and {3,4}), querying from 1 to 3. -/
theorem c4_unreachable_on_disconnected_witness :
    closedGraph exDisc ∧ 1 ∈ nodeIds exDisc ∧ 3 ∈ nodeIds exDisc ∧
    hasNegative exDisc ("length") = false ∧
    (shortest_path exDisc ("length") 1 3 =
        Except.error RouteError.Unreachable ∧
      (∀ r : List Nat, shortest_path exDisc ("length") 1 3 ≠ Except.ok r) ∧
      RouteError.Unreachable ≠ RouteError.NotFound ∧
      RouteError.Unreachable ≠ RouteError.NegativeWeight ∧
      RouteError.Unreachable ≠ RouteError.BrokenPath ∧
      RouteError.Unreachable ≠ RouteError.Cancelled) :=
  ⟨by decide, by decide, by decide, by decide,
    c4_unreachable_on_disconnected exDisc ("length") 1 3 (by decide)
      (by decide) (by decide) (by decide)
      (no_path_of_enum_nil (by decide) (by decide) (by decide))⟩

/-- Claim C7: the engine is deterministic — identical inputs on the
unmodified graph yield identical outputs — and among simple paths of equal
total weight it consistently returns the one least under the fixed
tie-break order. -/
theorem c7_deterministic_tie_break (g g' : Graph) (key key' : String)
    (s s' t t' : Nat) (hg : g = g') (hk : key = key') (hs' : s = s')
    (ht' : t = t') (hcl : closedGraph g) (hs : s ∈ nodeIds g) :
    shortest_path g key s t = shortest_path g' key' s' t' ∧
    ∀ r p, shortest_path g key s t = Except.ok r → isPath g s t p →
      pathWeight g key p = pathWeight g key r → p = r ∨ listLt r p = true := by
  subst hg hk hs' ht'
  refine ⟨rfl, ?_⟩
  intro r p hok hp heq
  have hpick := shortest_path_ok_pick hok
  have hrw : pathWeight g key r ≠ EW.inf :=
    ((mem_candidates_iff hcl hs).mp (pickBest_mem hpick)).2
  have hpmem : p ∈ candidatePaths g key s t :=
    (mem_candidates_iff hcl hs).mpr ⟨hp, by rw [heq]; exact hrw⟩
  exact pickBest_path_tie hpick p hpmem heq

/-- Witness for C7 on `exTie`, where routes [1,2,4] and [1,3,4] tie at
total weight 20 and the tie-break selects [1,2,4]. -/
theorem c7_deterministic_tie_break_witness :
    closedGraph exTie ∧ 1 ∈ nodeIds exTie ∧
    hasNegative exTie ("length") = false ∧
    shortest_path exTie ("length") 1 4 = Except.ok [1, 2, 4] ∧
    isPath exTie 1 4 [1, 3, 4] ∧
    pathWeight exTie ("length") [1, 3, 4] =
      pathWeight exTie ("length") [1, 2, 4] ∧
    (shortest_path exTie ("length") 1 4 = shortest_path exTie ("length") 1 4 ∧
      ∀ r p, shortest_path exTie ("length") 1 4 = Except.ok r →
        isPath exTie 1 4 p →
        pathWeight exTie ("length") p = pathWeight exTie ("length") r →
        p = r ∨ listLt r p = true) :=
  ⟨by decide, by decide, by decide, by decide, by decide, by decide,
    c7_deterministic_tie_break exTie exTie ("length") ("length") 1 1 4 4 rfl
      rfl rfl rfl (by decide) (by decide)⟩

/-- Claim C5: on a nonempty graph, `nearest` returns the identifier of a
node whose coordinate minimizes the pluggable metric over all nodes,
together with the computed distance; when the query point coincides with an
existing node's coordinate — the node at metric zero being unique, as the
claim's definite article presumes — the returned identifier is exactly that
node's and the computed distance is 0. -/
theorem c5_nearest_minimizes (g : Graph) (p : Point)
    (metric : Point → Point → ℤ) (hne : g.nodes ≠ []) :
    (∃ i d, nearest g p metric = some (i, d) ∧
      (∃ n ∈ g.nodes, n.id = i ∧ metric p (coordN n) = d) ∧
      ∀ m ∈ g.nodes, d ≤ metric p (coordN m)) ∧
    (∀ n ∈ g.nodes, coordN n = p →
      (∀ a b, 0 ≤ metric a b) → (∀ a, metric a a = 0) →
      (∀ m ∈ g.nodes, metric p (coordN m) = 0 → m.id = n.id) →
      nearest g p metric = some (n.id, 0)) := by
  obtain ⟨nb, hmem, heq, hmin, htie⟩ := nearest_spec g p metric hne
  refine ⟨⟨nb.id, metric p (coordN nb), heq, ⟨nb, hmem, rfl, rfl⟩, hmin⟩, ?_⟩
  intro n hn hcoord hnonneg hzero huniq
  have hle := hmin n hn
  rw [hcoord, hzero] at hle
  have hd0 : metric p (coordN nb) = 0 :=
    le_antisymm hle (hnonneg p (coordN nb))
  rw [heq, hd0, huniq nb hmem hd0]

/-- Witness for C5 on `exGrid` with the query point placed exactly on the
coordinate of node 2 and the squared-Euclidean metric. -/
theorem c5_nearest_minimizes_witness :
    exGrid.nodes ≠ [] ∧
    nearest exGrid (10, 0) euclidSq = some (2, 0) ∧
    ((∃ i d, nearest exGrid (10, 0) euclidSq = some (i, d) ∧
        (∃ n ∈ exGrid.nodes, n.id = i ∧ euclidSq (10, 0) (coordN n) = d) ∧
        ∀ m ∈ exGrid.nodes, d ≤ euclidSq (10, 0) (coordN m)) ∧
      (∀ n ∈ exGrid.nodes, coordN n = (10, 0) →
        (∀ a b, 0 ≤ euclidSq a b) → (∀ a, euclidSq a a = 0) →
        (∀ m ∈ exGrid.nodes, euclidSq (10, 0) (coordN m) = 0 → m.id = n.id) →
        nearest exGrid (10, 0) euclidSq = some (n.id, 0))) :=
  ⟨by decide, by decide,
    c5_nearest_minimizes exGrid (10, 0) euclidSq (by decide)⟩

/-- Claim C10: the script's target query point is the coordinate of the
node carrying the maximum x-coordinate (here assumed unique, as in the
source run), so the nearest-node lookup for the target returns exactly that
node's identifier. -/
theorem c10_target_is_max_x_node (g : Graph) (n : Node) (hmem : n ∈ g.nodes)
    (hmax : ∀ m ∈ g.nodes, m ≠ n → m.x < n.x) :
    target_point g = some (coordN n) ∧ target_node g = some n.id := by
  rcases hnodes : g.nodes with _ | ⟨n₀, rest⟩
  · rw [hnodes] at hmem
    simp at hmem
  · set M : ℤ := (rest.map (fun m => m.x)).foldl max n₀.x with hM
    have hmap : g.nodes.map (fun m => m.x) = n₀.x :: rest.map (fun m => m.x) := by
      rw [hnodes, List.map_cons]
    have hMeq : maxxOf g = some M := by
      unfold maxxOf
      rw [hmap]
    have hMmem : M ∈ g.nodes.map (fun m => m.x) := by
      rw [hmap]
      exact foldl_max_mem _ _
    have hMle : ∀ m ∈ g.nodes, m.x ≤ M := by
      intro m hm
      have : m.x ∈ g.nodes.map (fun m => m.x) := List.mem_map_of_mem _ hm
      rw [hmap] at this
      exact le_foldl_max _ _ _ this
    have hMn : M = n.x := by
      obtain ⟨m₀, hm₀, hm₀x⟩ := List.mem_map.mp hMmem
      by_cases hc : m₀ = n
      · rw [← hm₀x, hc]
      · have h1 : m₀.x < n.x := hmax m₀ hm₀ hc
        have h2 : n.x ≤ M := hMle n hmem
        omega
    have hfiltn : n ∈ g.nodes.filter (fun m => decide (m.x = M)) := by
      rw [List.mem_filter]
      exact ⟨hmem, by simp [hMn]⟩
    have hfiltuniq : ∀ m ∈ g.nodes.filter (fun m => decide (m.x = M)),
        m = n := by
      intro m hm
      rw [List.mem_filter] at hm
      obtain ⟨hm1, hm2⟩ := hm
      simp only [decide_eq_true_eq] at hm2
      by_contra hc
      have := hmax m hm1 hc
      omega
    have hloc : target_loc g = g.nodes.filter (fun m => decide (m.x = M)) := by
      unfold target_loc
      rw [hMeq]
    have htp : target_point g = some (coordN n) := by
      unfold target_point
      rw [hloc]
      rcases hfl : g.nodes.filter (fun m => decide (m.x = M)) with _ | ⟨m, ms⟩
      · rw [hfl] at hfiltn
        simp at hfiltn
      · have hmn : m = n := hfiltuniq m (by rw [hfl]; exact List.mem_cons_self m ms)
        rw [hfl, hmn]
        rfl
    refine ⟨htp, ?_⟩
    have htn : target_node g = (nearest g (coordN n) euclidSq).map Prod.fst := by
      unfold target_node
      rw [htp]
    obtain ⟨nb, hbmem, hbeq, hbmin, _⟩ :=
      nearest_spec g (coordN n) euclidSq (by rw [hnodes]; simp)
    have hzero : euclidSq (coordN n) (coordN n) = 0 := by
      simp [euclidSq]
    have hble := hbmin n hmem
    rw [hzero] at hble
    have hnonneg : 0 ≤ euclidSq (coordN n) (coordN nb) := by
      have h1 := sq_nonneg ((coordN n).1 - (coordN nb).1)
      have h2 := sq_nonneg ((coordN n).2 - (coordN nb).2)
      unfold euclidSq
      omega
    have hb0 : euclidSq (coordN n) (coordN nb) = 0 := le_antisymm hble hnonneg
    have hbx : nb.x = n.x := by
      have h1 := sq_nonneg ((coordN n).1 - (coordN nb).1)
      have h2 := sq_nonneg ((coordN n).2 - (coordN nb).2)
      have hx0 : ((coordN n).1 - (coordN nb).1) ^ 2 = 0 := by
        unfold euclidSq at hb0
        omega
      have := pow_eq_zero_iff (n := 2) (by norm_num) |>.mp hx0
      simp only [coordN] at this
      omega
    have hbn : nb = n := by
      by_contra hc
      have := hmax nb hbmem hc
      omega
    rw [htn, hbeq, hbn, hzero]
    rfl

/-- Witness for C10 on `exSeg`, whose node 2 at (3, 4) carries the unique
maximum x-coordinate. -/
theorem c10_target_is_max_x_node_witness :
    (⟨2, 3, 4, 102⟩ : Node) ∈ exSeg.nodes ∧
    (target_point exSeg = some (coordN ⟨2, 3, 4, 102⟩) ∧
      target_node exSeg = some (Node.id ⟨2, 3, 4, 102⟩)) :=
  ⟨by decide,
    c10_target_is_max_x_node exSeg ⟨2, 3, 4, 102⟩ (by decide) (by decide)⟩

/-- Claim C9: the reconstructed route line contains exactly one coordinate
per node of the route sequence, in the same order — coordinate k of the
line is the coordinate of the node row selected for identifier k. -/
theorem c9_route_line_one_coord_per_node (g : Graph) (r : List Nat)
    (pts : List Point) (h : route_line g r = some pts) :
    pts.length = r.length ∧
    ∀ (k : Nat) (hk : k < pts.length) (hk' : k < r.length),
      (lookupNode g (r.get ⟨k, hk'⟩)).map coordN = some (pts.get ⟨k, hk⟩) := by
  obtain ⟨ns, hln, rfl, _⟩ := route_line_eq h
  have hlen := locNodes_length hln
  constructor
  · simp [hlen]
  · intro k hk hk'
    have hk2 : k < ns.length := by simpa using hk
    rw [locNodes_get hln k hk' hk2]
    simp [List.getElem_map]

/-- Witness for C9 on `exSeg` with the route [1, 2]. -/
theorem c9_route_line_one_coord_per_node_witness :
    route_line exSeg [1, 2] = some [(0, 0), (3, 4)] ∧
    (([(0, 0), (3, 4)] : List Point).length = ([1, 2] : List Nat).length ∧
      ∀ (k : Nat) (hk : k < ([(0, 0), (3, 4)] : List Point).length)
        (hk' : k < ([1, 2] : List Nat).length),
        (lookupNode exSeg (([1, 2] : List Nat).get ⟨k, hk'⟩)).map coordN =
          some (([(0, 0), (3, 4)] : List Point).get ⟨k, hk⟩)) :=
  ⟨by decide,
    c9_route_line_one_coord_per_node exSeg [1, 2] [(0, 0), (3, 4)] (by decide)⟩

/-- Counterexample to C3 as stated: on `exSeg` the minimum-weight edge
chosen for the single consecutive pair of route [1, 2] weighs 99 under the
requested key, yet the total recorded in the route record is 5 — the
geometric length of the straight line between the two node coordinates —
so the recorded total does not equal the sum of the chosen edge weights. -/
theorem c3_counterexample_recorded_total :
    pathWeight exSeg ("length") [1, 2] = EW.val 99 ∧
    length_m exSeg [1, 2] = some 5 ∧
    length_m exSeg [1, 2] ≠ some (((99 : ℤ) : ℝ)) := by
  have hrl : route_line exSeg [1, 2] = some [(0, 0), (3, 4)] := by decide
  have hl5 : length_m exSeg [1, 2] = some 5 := by
    unfold length_m
    rw [hrl]
    simp only [Option.map_some', Option.some_inj]
    simp only [lineLength, segLen]
    norm_num
    rw [show ((25 : ℝ)) = 5 ^ 2 by norm_num]
    exact Real.sqrt_sq (by norm_num)
  refine ⟨by decide, hl5, ?_⟩
  rw [hl5]
  intro hc
  injection hc with hc
  norm_num at hc

/-- Claim C3 amended: the total recorded in the route record equals the
geometric length of the constructed route line — the sum, over each
consecutive pair of route-node coordinates, of the straight-segment
Euclidean length — rather than the sum of the chosen edges' weights. -/
theorem c3_recorded_total_is_line_length (g : Graph) (r : List Nat)
    (pts : List Point) (h : route_line g r = some pts) :
    length_m g r =
      some (((pts.zip pts.tail).map (fun pr => segLen pr.1 pr.2)).sum) := by
  unfold length_m
  rw [h]
  simp [lineLength_eq_zipSum]

/-- Witness for the amended C3 on `exSeg` with the route [1, 2]. -/
theorem c3_recorded_total_is_line_length_witness :
    route_line exSeg [1, 2] = some [(0, 0), (3, 4)] ∧
    length_m exSeg [1, 2] =
      some (((([(0, 0), (3, 4)] : List Point).zip
          ([(0, 0), (3, 4)] : List Point).tail).map
        (fun pr => segLen pr.1 pr.2)).sum) :=
  ⟨by decide,
    c3_recorded_total_is_line_length exSeg [1, 2] [(0, 0), (3, 4)] (by decide)⟩

/-- Counterexample to C6 as stated: on `exSeg` the trivial query 1→1 has a
path, and the engine returns the one-node sequence [1], but the
reconstruction produces no geometry at all — a line cannot be built from a
single coordinate — so no route record with matching endpoints exists. -/
theorem c6_counterexample_single_node_route :
    isPath exSeg 1 1 [1] ∧
    shortest_path exSeg ("length") 1 1 = Except.ok [1] ∧
    route_line exSeg [1] = none ∧
    length_m exSeg [1] = none := by
  refine ⟨by decide, by decide, by decide, ?_⟩
  unfold length_m
  rw [show route_line exSeg [1] = none from by decide]
  rfl

/-- Claim C6 amended (restricted to distinct endpoints, where a line can be
built): the reconstruction applied to the engine's returned sequence yields
a coordinate line whose first coordinate is the source node's coordinate
and whose last coordinate is the target node's coordinate. -/
theorem c6_round_trip_endpoints (g : Graph) (key : String) (s t : Nat)
    (hcl : closedGraph g) (hs : s ∈ nodeIds g) (ht : t ∈ nodeIds g)
    (hneg : hasNegative g key = false)
    (hex : ∃ p, isPath g s t p ∧ pathWeight g key p ≠ EW.inf) (hst : s ≠ t) :
    ∃ r pts, shortest_path g key s t = Except.ok r ∧
      route_line g r = some pts ∧
      (∃ m, lookupNode g s = some m ∧ pts.head? = some (coordN m)) ∧
      (∃ m, lookupNode g t = some m ∧ pts.getLast? = some (coordN m)) := by
  obtain ⟨r, hok, hpath, _, _, _⟩ := shortest_path_ok_spec hcl hs ht hneg hex
  obtain ⟨hhead, hlast, hnodup, hchain⟩ := hpath
  have hrids : ∀ x ∈ r, x ∈ nodeIds g := path_nodes_mem hcl r s hhead hs hchain
  obtain ⟨ns, hln⟩ := locNodes_some hrids
  have hnslen := locNodes_length hln
  have hrlen : 2 ≤ r.length := by
    match r, hhead, hlast with
    | [a], hhead, hlast =>
      simp only [List.head?_cons, List.getLast?_singleton,
        Option.some.injEq] at hhead hlast
      exact absurd (hhead.symm.trans hlast) hst
    | a :: b :: rest, _, _ => simp
  have hpts : route_line g r = some (ns.map coordN) :=
    route_line_of_locNodes hln (by omega)
  refine ⟨r, ns.map coordN, hok, hpts, ?_, ?_⟩
  · match r, hhead, hln with
    | a :: rest, hhead, hln =>
      simp only [List.head?_cons, Option.some.injEq] at hhead
      obtain ⟨m, ns', hm, _, rfl⟩ := locNodes_cons.mp hln
      exact ⟨m, hhead ▸ hm, by simp⟩
  · obtain ⟨m, hm, hml⟩ := locNodes_getLast hln hlast
    refine ⟨m, hm, ?_⟩
    rw [List.getLast?_map, hml]
    rfl

/-- Witness for the amended C6 on `exGrid` from node 1 to node 4. -/
theorem c6_round_trip_endpoints_witness :
    closedGraph exGrid ∧ 1 ∈ nodeIds exGrid ∧ 4 ∈ nodeIds exGrid ∧
    hasNegative exGrid ("length") = false ∧ (1 : Nat) ≠ 4 ∧
    (∃ r pts, shortest_path exGrid ("length") 1 4 = Except.ok r ∧
      route_line exGrid r = some pts ∧
      (∃ m, lookupNode exGrid 1 = some m ∧ pts.head? = some (coordN m)) ∧
      (∃ m, lookupNode exGrid 4 = some m ∧ pts.getLast? = some (coordN m))) :=
  ⟨by decide, by decide, by decide, by decide, by decide,
    c6_round_trip_endpoints exGrid ("length") 1 4 (by decide) (by decide)
      (by decide) (by decide) ⟨[1, 4], by decide, by decide⟩ (by decide)⟩

/-- Counterexample to C8 as stated: on `exSeg` the route [1, 2] traverses
exactly one edge, yet the identifiers collected into the route record are
the two per-node `osmid` values — one per node, not one per edge — and the
stored field is their string rendering rather than a list value. -/
theorem c8_counterexample_osmids :
    routeOsmids exSeg [1, 2] = some [101, 102] ∧
    ([101, 102] : List Nat).length = 2 ∧
    ([1, 2] : List Nat).length - 1 = 1 ∧ (2 : Nat) ≠ 1 ∧
    osmidsField exSeg [1, 2] = some ("[101, 102]") := by
  decide

/-- Claim C8 amended: the route record's `osmids` field is the Python
string rendering of the ordered per-node `osmid` list — one entry per route
node (one more than the number of traversed edges), entry k being the
`osmid` of the node row selected for route identifier k. -/
theorem c8_osmids_field_per_node (g : Graph) (r : List Nat) (ns : List Node)
    (h : locNodes g r = some ns) :
    routeOsmids g r = some (ns.map (fun m => m.osmid)) ∧
    (ns.map (fun m => m.osmid)).length = r.length ∧
    osmidsField g r = some (pyStrIntList (ns.map (fun m => m.osmid))) ∧
    ∀ (k : Nat) (hk : k < r.length) (hk' : k < ns.length),
      (lookupNode g (r.get ⟨k, hk⟩)).map (fun m => m.osmid) =
        some ((ns.get ⟨k, hk'⟩).osmid) := by
  refine ⟨by simp [routeOsmids, h], by simp [locNodes_length h], ?_, ?_⟩
  · simp [osmidsField, routeOsmids, h]
  · intro k hk hk'
    rw [locNodes_get h k hk hk']
    rfl

/-- Witness for the amended C8 on `exSeg` with the route [1, 2]. -/
theorem c8_osmids_field_per_node_witness :
    locNodes exSeg [1, 2] = some [⟨1, 0, 0, 101⟩, ⟨2, 3, 4, 102⟩] ∧
    (routeOsmids exSeg [1, 2] =
        some (([⟨1, 0, 0, 101⟩, ⟨2, 3, 4, 102⟩] : List Node).map
          (fun m => m.osmid)) ∧
      (([⟨1, 0, 0, 101⟩, ⟨2, 3, 4, 102⟩] : List Node).map
          (fun m => m.osmid)).length = ([1, 2] : List Nat).length ∧
      osmidsField exSeg [1, 2] =
        some (pyStrIntList (([⟨1, 0, 0, 101⟩, ⟨2, 3, 4, 102⟩] :
          List Node).map (fun m => m.osmid))) ∧
      ∀ (k : Nat) (hk : k < ([1, 2] : List Nat).length)
        (hk' : k < ([⟨1, 0, 0, 101⟩, ⟨2, 3, 4, 102⟩] : List Node).length),
        (lookupNode exSeg (([1, 2] : List Nat).get ⟨k, hk⟩)).map
            (fun m => m.osmid) =
          some ((([⟨1, 0, 0, 101⟩, ⟨2, 3, 4, 102⟩] : List Node).get
            ⟨k, hk'⟩).osmid)) :=
  ⟨by decide,
    c8_osmids_field_per_node exSeg [1, 2] [⟨1, 0, 0, 101⟩, ⟨2, 3, 4, 102⟩]
      (by decide)⟩

end OsmnxRouting
